import Mathlib

/-!
Verification of the Knowledge Synthesis concept engine.

This file gives a shallow embedding of the concept-graph index
(`ConceptGraphImpl`), the text-processing utilities
(`TextProcessingUtils`) and the concept extractor
(`ConceptExtractorImpl`) of the Obsidian Knowledge Synthesis plugin,
and proves or refutes the specification claims about them.

JavaScript `Map` objects are modelled as association lists with
insertion-order semantics: `set` overwrites in place or appends,
`get` returns the first binding, `delete` removes the binding.
-/

/-- Lookup in an insertion-ordered association list (JS `Map.get`). -/
def mapGet {α β : Type} [DecidableEq α] (m : List (α × β)) (k : α) : Option β :=
  match m with
  | [] => none
  | (k', v) :: rest => if k' = k then some v else mapGet rest k

/-- Update in an insertion-ordered association list (JS `Map.set`):
overwrite the existing binding in place, or append a new one. -/
def mapSet {α β : Type} [DecidableEq α] (m : List (α × β)) (k : α) (v : β) : List (α × β) :=
  match m with
  | [] => [(k, v)]
  | (k', v') :: rest => if k' = k then (k, v) :: rest else (k', v') :: mapSet rest k v

/-- Removal from an association list (JS `Map.delete`). -/
def mapDelete {α β : Type} [DecidableEq α] (m : List (α × β)) (k : α) : List (α × β) :=
  m.filter (fun q => decide (q.1 ≠ k))

/-- Note node stored in the graph (source: `NoteNode` in the concept graph module). -/
structure NoteNode where
  path : String
  concepts : List String
  lastUpdated : Nat
  deriving DecidableEq

/-- Concept node stored in the graph (source: `ConceptNode`). -/
structure ConceptNode where
  name : String
  notePaths : List String
  weight : Nat
  deriving DecidableEq

/-- State of `ConceptGraphImpl`: the two `Map` fields `notes` and `concepts`. -/
structure GraphState where
  notes : List (String × NoteNode)
  concepts : List (String × ConceptNode)
  deriving DecidableEq

/-- Initial state of a freshly constructed `ConceptGraphImpl`. -/
def emptyGraphState : GraphState := { notes := [], concepts := [] }

/-- Body of the `for (const concept of concepts)` loop of `addNote`:
fetch or create the concept node, attach the note path if missing,
recompute the weight, and store the node. -/
def addConceptFor (path : String) (m : List (String × ConceptNode)) (concept : String) :
    List (String × ConceptNode) :=
  let conceptNode := (mapGet m concept).getD { name := concept, notePaths := [], weight := 1 }
  let conceptNode :=
    if path ∈ conceptNode.notePaths then conceptNode
    else { conceptNode with notePaths := conceptNode.notePaths ++ [path] }
  let conceptNode := { conceptNode with weight := conceptNode.notePaths.length }
  mapSet m concept conceptNode

/-- Shallow embedding of `ConceptGraphImpl.addNote`.  The ambient
`Date.now()` is passed explicitly as `now`. -/
def addNote (s : GraphState) (path : String) (concepts : List String) (now : Nat) : GraphState :=
  { notes := mapSet s.notes path { path := path, concepts := concepts, lastUpdated := now },
    concepts := concepts.foldl (addConceptFor path) s.concepts }

/-- Body of the cleanup loop of `removeNote`: filter the path out of the
concept node, recompute the weight, and delete the node when it has no
note paths left. -/
def removeConceptFor (path : String) (m : List (String × ConceptNode)) (concept : String) :
    List (String × ConceptNode) :=
  match mapGet m concept with
  | none => m
  | some conceptNode =>
    let conceptNode :=
      { conceptNode with notePaths := conceptNode.notePaths.filter (fun q => decide (q ≠ path)) }
    let conceptNode := { conceptNode with weight := conceptNode.notePaths.length }
    if conceptNode.notePaths.length = 0 then mapDelete m concept
    else mapSet m concept conceptNode

/-- Shallow embedding of `ConceptGraphImpl.removeNote`. -/
def removeNote (s : GraphState) (path : String) : GraphState :=
  match mapGet s.notes path with
  | none => s
  | some note =>
    { notes := mapDelete s.notes path,
      concepts := note.concepts.foldl (removeConceptFor path) s.concepts }

/-- Shallow embedding of `ConceptGraphImpl.updateNoteConcepts`: it only
overwrites the entry of the `notes` map. -/
def updateNoteConcepts (s : GraphState) (path : String) (newConcepts : List String) (now : Nat) :
    GraphState :=
  { s with notes := mapSet s.notes path { path := path, concepts := newConcepts, lastUpdated := now } }

/-- Mutating calls of the public `ConceptGraph` contract. -/
inductive GraphOp where
  | add (path : String) (concepts : List String) (now : Nat)
  | remove (path : String)
  | update (path : String) (concepts : List String) (now : Nat)

/-- Apply one mutating call to a graph state. -/
def applyOp (s : GraphState) : GraphOp → GraphState
  | GraphOp.add p cs t => addNote s p cs t
  | GraphOp.remove p => removeNote s p
  | GraphOp.update p cs t => updateNoteConcepts s p cs t

/-- Run a sequence of mutating calls from the empty graph. -/
def runOps (ops : List GraphOp) : GraphState := ops.foldl applyOp emptyGraphState

/-- Standing invariant of the concept map: every stored concept node has
`weight` equal to the number of its note paths, and a nonempty note-path
list. -/
def ConceptWF (m : List (String × ConceptNode)) : Prop :=
  ∀ q ∈ m, q.2.weight = q.2.notePaths.length ∧ q.2.notePaths ≠ []

instance (m : List (String × ConceptNode)) : Decidable (ConceptWF m) := by
  unfold ConceptWF
  infer_instance

/-- Path `path` is attached to concept `c` in concept map `m`, with a
consistent weight. -/
def AttachedAt (path : String) (m : List (String × ConceptNode)) (c : String) : Prop :=
  ∃ node, mapGet m c = some node ∧ path ∈ node.notePaths ∧ node.weight = node.notePaths.length

/-- Accumulating score record of `findRelatedNotes` (`relevance` is the
raw integer score while accumulating; source: the `scores` map values). -/
structure ScoreData where
  relevance : Nat
  sharedConcepts : List String
  deriving DecidableEq

/-- Result record of `findRelatedNotes` (source: `RelatedNote`; the
`TFile` is identified by its vault path). -/
structure RelatedNote where
  file : String
  relevance : ℚ
  sharedConcepts : List String

/-- Body of the `for (const relatedPath of conceptNode.notePaths)` loop
of `findRelatedNotes`. -/
def scoreStep (notePath : String) (cnode : ConceptNode) (concept : String)
    (scores : List (String × ScoreData)) (relatedPath : String) : List (String × ScoreData) :=
  if relatedPath = notePath then scores
  else
    let scoreData := (mapGet scores relatedPath).getD { relevance := 0, sharedConcepts := [] }
    let scoreData := { scoreData with relevance := scoreData.relevance + cnode.weight }
    let scoreData :=
      if concept ∈ scoreData.sharedConcepts then scoreData
      else { scoreData with sharedConcepts := scoreData.sharedConcepts ++ [concept] }
    mapSet scores relatedPath scoreData

/-- Score accumulation phase of `findRelatedNotes`: iterate over the
note's concepts and, for each, over the concept node's note paths. -/
def accumScores (s : GraphState) (notePath : String) (noteConcepts : List String) :
    List (String × ScoreData) :=
  noteConcepts.foldl (fun scores concept =>
    match mapGet s.concepts concept with
    | none => scores
    | some cnode => cnode.notePaths.foldl (scoreStep notePath cnode concept) scores) []

/-- Normalisation constant of `findRelatedNotes`:
`Math.max(...scores.values().map(relevance), 1)`. -/
def maxRawScore (scores : List (String × ScoreData)) : Nat :=
  (scores.map (fun q => q.2.relevance)).foldl Nat.max 1

/-- Comparator of the final sort of `findRelatedNotes`:
`(a, b) => b.relevance - a.relevance`, i.e. descending relevance. -/
def relatedDesc (a b : RelatedNote) : Prop := b.relevance ≤ a.relevance

instance : DecidableRel relatedDesc :=
  fun a b => inferInstanceAs (Decidable (b.relevance ≤ a.relevance))

instance : IsTotal RelatedNote relatedDesc :=
  ⟨fun a b => le_total b.relevance a.relevance⟩

instance : IsTrans RelatedNote relatedDesc :=
  ⟨fun _ _ _ hab hbc => le_trans hbc hab⟩

/-- Conversion of one score entry into a `RelatedNote` with normalised
relevance (the `scores.entries()` loop body of `findRelatedNotes`). -/
def toRelatedNote (maxScore : Nat) (q : String × ScoreData) : RelatedNote :=
  { file := q.1,
    relevance := (q.2.relevance : ℚ) / (maxScore : ℚ),
    sharedConcepts := q.2.sharedConcepts }

/-- Shallow embedding of `ConceptGraphImpl.findRelatedNotes`.  The
Obsidian vault is modelled by the list of paths for which
`getAbstractFileByPath` returns a markdown `TFile`; JS' stable
`Array.sort` with a descending comparator is modelled by a stable
insertion sort. -/
def findRelatedNotes (vault : List String) (s : GraphState) (notePath : String)
    (maxResults : Nat) : List RelatedNote :=
  match mapGet s.notes notePath with
  | none => []
  | some note =>
    let scores := accumScores s notePath note.concepts
    let maxScore := maxRawScore scores
    let relatedNotes := (scores.filter (fun q => decide (q.1 ∈ vault))).map (toRelatedNote maxScore)
    (List.insertionSort relatedDesc relatedNotes).take maxResults

/-- Keys of an association list are pairwise distinct. -/
def KeysNodup {α β : Type} (m : List (α × β)) : Prop := (m.map Prod.fst).Nodup

/-- Every accumulated raw score is at least 1. -/
def ScoreAllPos (m : List (String × ScoreData)) : Prop := ∀ q ∈ m, 1 ≤ q.2.relevance

/-- Word character of the JS regex class `\w`: letters, digits, underscore. -/
def isWordChar (c : Char) : Bool := c.isAlphanum || c == '_'

/-- Split a character list at every separator character, keeping empty
chunks (JS `String.split` with a single-character separator). -/
def splitChunks (p : Char → Bool) (l : List Char) : List (List Char) :=
  match l with
  | [] => [[]]
  | c :: cs =>
    let rest := splitChunks p cs
    if p c then [] :: rest
    else match rest with
      | [] => [[c]]
      | chunk :: more => (c :: chunk) :: more

/-- Shallow embedding of `TextProcessingUtils.tokenize`: lowercase,
replace every character that is not a word character with a space,
collapse whitespace runs, trim, and split on single spaces.  On input
that normalises to the empty string this returns `[""]`, exactly as
`"".split(" ")` does in JS. -/
def tokenize (text : String) : List String :=
  let lowered := text.toList.map Char.toLower
  let replaced := lowered.map (fun c => if isWordChar c || c.isWhitespace then c else ' ')
  let chunks := (splitChunks (fun c => c.isWhitespace) replaced).filter (fun l => decide (l ≠ []))
  match chunks with
  | [] => [""]
  | ws => ws.map (fun l => String.mk l)

/-- Stop-word list of `TextProcessingUtils`, verbatim from the source. -/
def stopWords : List String :=
  ["a", "an", "the", "and", "or", "but", "is", "are", "was", "were",
   "be", "been", "being", "have", "has", "had", "do", "does", "did",
   "of", "as", "like", "if", "that", "you", "with", "your", "through",
   "to", "from", "in", "out", "on", "off", "over", "under", "again",
   "further", "then", "once", "here", "there", "when", "where", "why",
   "how", "all", "any", "both", "each", "few", "more", "most", "other",
   "some", "such", "no", "nor", "not", "only", "own", "same", "so",
   "than", "too", "very", "can", "will", "just", "should", "now"]

/-- Shallow embedding of `TextProcessingUtils.calculateTermFrequency`. -/
def calculateTermFrequency (tokens : List String) : List (String × Nat) :=
  tokens.foldl (fun termFrequency token =>
    mapSet termFrequency token ((mapGet termFrequency token).getD 0 + 1)) []

/-- Shallow embedding of `TextProcessingUtils.removeStopWords`: drop
stop words and tokens of length at most 1. -/
def removeStopWords (tokens : List String) : List String :=
  tokens.filter (fun token => decide (token ∉ stopWords ∧ 1 < token.length))

/-- Both-ends whitespace trim on characters (JS `String.trim`). -/
def trimChars (l : List Char) : List Char :=
  ((l.dropWhile Char.isWhitespace).reverse.dropWhile Char.isWhitespace).reverse

def isUpperAZ (c : Char) : Bool := 'A' ≤ c && c ≤ 'Z'

def isLowerAZ (c : Char) : Bool := 'a' ≤ c && c ≤ 'z'

/-- JS regex test `^[A-Z][a-z]+$`. -/
def entityPattern (w : String) : Bool :=
  match w.toList with
  | [] => false
  | c :: rest => isUpperAZ c && !rest.isEmpty && rest.all isLowerAZ

def isSentenceEnd (c : Char) : Bool := c == '.' || c == '!' || c == '?'

/-- Split at maximal nonempty runs of separator characters, as JS
`String.split` does on the regex class `[.!?]+`. -/
def splitRunsGo (p : Char → Bool) : List Char → List Char → Bool → List (List Char)
  | [], cur, _ => [cur.reverse]
  | c :: cs, cur, prevSep =>
    if p c then
      if prevSep then splitRunsGo p cs [] true
      else cur.reverse :: splitRunsGo p cs [] true
    else splitRunsGo p cs (c :: cur) false

/-- Sentences of `extractNamedEntities`: `text.split(/[.!?]+/)`. -/
def sentencesOf (text : String) : List String :=
  (splitRunsGo isSentenceEnd text.toList [] false).map (fun l => String.mk l)

/-- Words of one sentence: `sentence.trim().split(" ")` (empty pieces
between consecutive spaces are kept, as in JS). -/
def wordsOf (sentence : String) : List String :=
  (splitChunks (fun c => c == ' ') (trimChars sentence.toList)).map (fun l => String.mk l)

/-- Contribution of loop index `i` of `extractNamedEntities`: the
single-word push (which skips the sentence's first word) followed by the
compound push for adjacent capitalised words. -/
def entityContrib (ws : List String) (i : Nat) : List String :=
  (if 0 < i ∧ 1 < (ws.getD i "").length ∧ entityPattern (ws.getD i "") = true
    then [ws.getD i ""] else []) ++
  (if i + 1 < ws.length ∧ 1 < (ws.getD i "").length ∧ entityPattern (ws.getD i "") = true ∧
      entityPattern (ws.getD (i + 1) "") = true
    then [ws.getD i "" ++ " " ++ ws.getD (i + 1) ""] else [])

/-- Entity candidates pushed while scanning one sentence. -/
def sentenceEntities (sentence : String) : List String :=
  (List.range (wordsOf sentence).length).foldl
    (fun acc i => acc ++ entityContrib (wordsOf sentence) i) []

/-- Deduplication keeping first occurrences (JS `[...new Set(xs)]`). -/
def dedupAux (seen : List String) : List String → List String
  | [] => []
  | x :: xs => if x ∈ seen then dedupAux seen xs else x :: dedupAux (x :: seen) xs

def dedupKeepFirst (l : List String) : List String := dedupAux [] l

/-- Shallow embedding of `TextProcessingUtils.extractNamedEntities`. -/
def extractNamedEntities (text : String) : List String :=
  dedupKeepFirst
    ((sentencesOf text).foldl (fun acc sentence => acc ++ sentenceEntities sentence) [])

/-- Lines of the content (for the multiline heading regex, which anchors
`^`/`$` at newlines). -/
def linesOf (content : String) : List (List Char) :=
  splitChunks (fun c => c == '\n') content.toList

/-- Match of the heading regex `^#+\s+(.+)$` against one line, returning
`match[1].trim()`.  The greedy `\s+` backtracks one character when the
rest of the line is all whitespace, so a line of hashes followed by two
or more whitespace characters matches with an empty trimmed group. -/
def headingLabel (line : List Char) : Option String :=
  let hashes := line.takeWhile (fun c => c == '#')
  let rest := line.dropWhile (fun c => c == '#')
  let ws := rest.takeWhile Char.isWhitespace
  let tail := rest.dropWhile Char.isWhitespace
  if hashes = [] ∨ ws = [] then none
  else if tail ≠ [] then some (String.mk (trimChars tail))
  else if 2 ≤ ws.length then some ""
  else none

/-- Shallow embedding of `ConceptExtractorImpl.extractFromHeadings`. -/
def extractFromHeadings (content : String) : List String :=
  (linesOf content).filterMap headingLabel

/-- Search for the closing two-character delimiter of a `**`/`__` span:
the lazy `(.*?)` takes the shortest prefix not containing a newline
(`.` does not match newlines) that is followed by the delimiter. -/
def findClose2 (d : Char) : List Char → Option (List Char × List Char)
  | c1 :: c2 :: rest =>
    if c1 = d ∧ c2 = d then some ([], rest)
    else if c1 = '\n' then none
    else match findClose2 d (c2 :: rest) with
      | some (content, after) => some (c1 :: content, after)
      | none => none
  | _ => none

/-- Search for the closing single-character delimiter of a `*`/`_` span. -/
def findClose1 (d : Char) : List Char → Option (List Char × List Char)
  | [] => none
  | c :: rest =>
    if c = d then some ([], rest)
    else if c = '\n' then none
    else match findClose1 d rest with
      | some (content, after) => some (c :: content, after)
      | none => none

def isEmphChar (c : Char) : Bool := c == '*' || c == '_'

/-- Attempt the first regex alternative `(\*\*|__)(.*?)\1` at a position
starting with delimiter character `c`. -/
def tryDouble (c : Char) (cs : List Char) : Option (List Char × List Char) :=
  match cs with
  | c2 :: cs2 => if c2 = c then findClose2 c cs2 else none
  | [] => none

/-- Push of the emphasis loop: `if (text && text.trim().length > 0)
emphasized.push(text.trim())`. -/
def emitEmph (content : List Char) : List String :=
  let t := trimChars content
  if t = [] then [] else [String.mk t]

/-- Scanner for the global regex
`(\*\*|__)(.*?)\1|(\*|_)(.*?)\3`: at each position try the double-
delimiter alternative, then the single one, then move one character
forward.  `fuel` bounds the recursion; every step consumes at least one
character, so `text.length + 1` is always enough. -/
def emphasisScanGo (fuel : Nat) (l : List Char) : List String :=
  match fuel, l with
  | 0, _ => []
  | _ + 1, [] => []
  | fuel + 1, c :: cs =>
    if isEmphChar c then
      match tryDouble c cs with
      | some (content, rest) => emitEmph content ++ emphasisScanGo fuel rest
      | none =>
        match findClose1 c cs with
        | some (content, rest) => emitEmph content ++ emphasisScanGo fuel rest
        | none => emphasisScanGo fuel cs
    else emphasisScanGo fuel cs

/-- Shallow embedding of `ConceptExtractorImpl.extractFromEmphasis`. -/
def extractFromEmphasis (content : String) : List String :=
  emphasisScanGo (content.length + 1) content.toList

/-- Threshold of the frequency strategy:
`Math.max(2, Math.floor(20 / (11 - sensitivity)))`. -/
def tfThreshold (sensitivity : Int) : Int := max 2 (20 / (11 - sensitivity))

/-- Comparator of the frequency sort: `(a, b) => b[1] - a[1]`, i.e.
descending frequency. -/
def freqDesc (a b : String × Nat) : Prop := b.2 ≤ a.2

instance : DecidableRel freqDesc :=
  fun a b => inferInstanceAs (Decidable (b.2 ≤ a.2))

instance : IsTotal (String × Nat) freqDesc :=
  ⟨fun a b => le_total b.2 a.2⟩

instance : IsTrans (String × Nat) freqDesc :=
  ⟨fun _ _ _ hab hbc => le_trans hbc hab⟩

/-- Shallow embedding of `ConceptExtractorImpl.extractFromTfIdf`:
tokenize, remove stop words, count frequencies, keep terms at or above
the threshold, sort by frequency descending (stably, as JS
`Array.sort`), keep the top `sensitivity * 3`, return the terms. -/
def extractFromTfIdf (sensitivity : Int) (content : String) : List String :=
  let tokens := tokenize content
  let filteredTokens := removeStopWords tokens
  let termFrequency := calculateTermFrequency filteredTokens
  let sortedTerms :=
    ((List.insertionSort freqDesc
        (termFrequency.filter (fun q => decide (tfThreshold sensitivity ≤ (q.2 : Int))))).take
      (sensitivity * 3).toNat).map (fun q => q.1)
  sortedTerms

/-- Scenario text of the spec for the frequency strategy: "error" four
times, "handling" three times, and ten other terms once each (all
outside the stop-word list, all of length above 1). -/
def tfScenarioText : String :=
  "error error error error handling handling handling alpha beta gamma delta epsilon zeta eta theta iota kappa"

/-- State of `ConceptExtractorImpl`: the sensitivity level and the
`userFeedback` map. -/
structure ExtractorState where
  sensitivity : Int
  userFeedback : List (String × Bool)
  deriving DecidableEq

/-- Freshly constructed `ConceptExtractorImpl`. -/
def initExtractor : ExtractorState := { sensitivity := 5, userFeedback := [] }

/-- Shallow embedding of `ConceptExtractorImpl.setSensitivity`:
clamp to `[1, 10]`, never reject. -/
def setSensitivity (s : ExtractorState) (v : Int) : ExtractorState :=
  { s with sensitivity := max 1 (min 10 v) }

/-- Shallow embedding of `ConceptExtractorImpl.learnFromUserFeedback`. -/
def learnFromUserFeedback (s : ExtractorState) (concept : String) (isRelevant : Bool) :
    ExtractorState :=
  { s with userFeedback := mapSet s.userFeedback concept isRelevant }

/-- Concatenation of the four extraction strategies, in source order. -/
def allStrategyConcepts (s : ExtractorState) (content : String) : List String :=
  extractFromTfIdf s.sensitivity content ++ extractFromHeadings content ++
    extractFromEmphasis content ++ extractNamedEntities content

/-- Shallow embedding of `ConceptExtractorImpl.extractConcepts`: empty
or whitespace-only content yields `[]`; otherwise union the four
strategies, drop labels with explicit negative feedback, deduplicate. -/
def extractConcepts (s : ExtractorState) (content : String) : List String :=
  if trimChars content.toList = [] then []
  else
    dedupKeepFirst ((allStrategyConcepts s content).filter
      (fun concept => decide (mapGet s.userFeedback concept ≠ some false)))

theorem mapGet_set_self {α β : Type} [DecidableEq α] (m : List (α × β)) (k : α) (v : β) :
    mapGet (mapSet m k v) k = some v := by
  induction m with
  | nil => simp [mapGet, mapSet]
  | cons hd tl ih =>
    obtain ⟨k', v'⟩ := hd
    by_cases h : k' = k <;> simp [mapGet, mapSet, h, ih]

theorem mapGet_set_ne {α β : Type} [DecidableEq α] (m : List (α × β)) (k : α) (v : β)
    (k' : α) (h : k' ≠ k) : mapGet (mapSet m k v) k' = mapGet m k' := by
  have hk : ¬ k = k' := fun e => h e.symm
  induction m with
  | nil => simp [mapGet, mapSet, hk]
  | cons hd tl ih =>
    obtain ⟨k0, v0⟩ := hd
    by_cases h0 : k0 = k
    · subst h0
      simp [mapGet, mapSet, hk]
    · simp only [mapGet, mapSet, if_neg h0]
      by_cases h1 : k0 = k' <;> simp [mapGet, h1, ih]

theorem mapGet_mem {α β : Type} [DecidableEq α] {m : List (α × β)} {k : α} {v : β}
    (h : mapGet m k = some v) : (k, v) ∈ m := by
  induction m with
  | nil => simp [mapGet] at h
  | cons hd tl ih =>
    obtain ⟨k', v'⟩ := hd
    by_cases h0 : k' = k
    · subst h0
      simp [mapGet] at h
      simp [h]
    · simp [mapGet, h0] at h
      exact List.mem_cons_of_mem _ (ih h)

theorem mem_mapSet {α β : Type} [DecidableEq α] {m : List (α × β)} {k : α} {v : β}
    {q : α × β} (h : q ∈ mapSet m k v) : q ∈ m ∨ q = (k, v) := by
  induction m with
  | nil => simp [mapSet] at h; simp [h]
  | cons hd tl ih =>
    obtain ⟨k', v'⟩ := hd
    by_cases h0 : k' = k
    · subst h0
      simp [mapSet] at h
      rcases h with h | h
      · right; simp [h]
      · left; exact List.mem_cons_of_mem _ h
    · simp [mapSet, h0] at h
      rcases h with h | h
      · left; simp [h]
      · rcases ih h with h1 | h1
        · left; exact List.mem_cons_of_mem _ h1
        · right; exact h1

theorem mapSet_get_same {α β : Type} [DecidableEq α] {m : List (α × β)} {k : α} {v : β}
    (h : mapGet m k = some v) : mapSet m k v = m := by
  induction m with
  | nil => simp [mapGet] at h
  | cons hd tl ih =>
    obtain ⟨k', v'⟩ := hd
    by_cases h0 : k' = k
    · subst h0
      simp [mapGet] at h
      simp [mapSet, h]
    · simp [mapGet, h0] at h
      simp [mapSet, h0, ih h]

theorem mapSet_set_self {α β : Type} [DecidableEq α] (m : List (α × β)) (k : α) (v w : β) :
    mapSet (mapSet m k v) k w = mapSet m k w := by
  induction m with
  | nil => simp [mapSet]
  | cons hd tl ih =>
    obtain ⟨k', v'⟩ := hd
    by_cases h : k' = k <;> simp [mapSet, h, ih]

theorem addConceptFor_eq (path : String) (m : List (String × ConceptNode)) (concept : String) :
    ∃ node, addConceptFor path m concept = mapSet m concept node ∧
      node.weight = node.notePaths.length ∧ path ∈ node.notePaths ∧
      ∀ q ∈ ((mapGet m concept).getD
        { name := concept, notePaths := [], weight := 1 }).notePaths, q ∈ node.notePaths := by
  unfold addConceptFor
  set n0 := (mapGet m concept).getD { name := concept, notePaths := [], weight := 1 } with hn0
  by_cases hmem : path ∈ n0.notePaths
  · exact ⟨{ n0 with weight := n0.notePaths.length }, by simp [hmem], rfl, hmem, fun q hq => hq⟩
  · refine ⟨{ n0 with
                notePaths := n0.notePaths ++ [path],
                weight := (n0.notePaths ++ [path]).length }, by simp [hmem], rfl, ?_, ?_⟩
    · simp
    · intro q hq
      simp [hq]

theorem conceptWF_addConceptFor {m : List (String × ConceptNode)} (h : ConceptWF m)
    (path concept : String) : ConceptWF (addConceptFor path m concept) := by
  obtain ⟨node, heq, hw, hp, _⟩ := addConceptFor_eq path m concept
  rw [heq]
  intro q hq
  rcases mem_mapSet hq with hmem | hqe
  · exact h q hmem
  · subst hqe
    exact ⟨hw, List.ne_nil_of_mem hp⟩

theorem conceptWF_foldl_add {m : List (String × ConceptNode)} {L : List String}
    (h : ConceptWF m) (path : String) : ConceptWF (L.foldl (addConceptFor path) m) := by
  induction L generalizing m with
  | nil => exact h
  | cons c rest ih => exact ih (conceptWF_addConceptFor h path c)

theorem conceptWF_removeConceptFor {m : List (String × ConceptNode)} (h : ConceptWF m)
    (path concept : String) : ConceptWF (removeConceptFor path m concept) := by
  cases hget : mapGet m concept with
  | none =>
    unfold removeConceptFor
    rw [hget]
    exact h
  | some n =>
    unfold removeConceptFor
    rw [hget]
    show ConceptWF
      (if (List.filter (fun q => decide (q ≠ path)) n.notePaths).length = 0
        then mapDelete m concept
        else mapSet m concept
          { name := n.name,
            notePaths := List.filter (fun q => decide (q ≠ path)) n.notePaths,
            weight := (List.filter (fun q => decide (q ≠ path)) n.notePaths).length })
    by_cases hlen : (List.filter (fun q => decide (q ≠ path)) n.notePaths).length = 0
    · rw [if_pos hlen]
      intro q hq
      exact h q (List.mem_of_mem_filter hq)
    · rw [if_neg hlen]
      intro q hq
      rcases mem_mapSet hq with hmem | hqe
      · exact h q hmem
      · subst hqe
        exact ⟨rfl, fun hnil => hlen (List.length_eq_zero.mpr hnil)⟩

theorem conceptWF_foldl_remove {m : List (String × ConceptNode)} {L : List String}
    (h : ConceptWF m) (path : String) : ConceptWF (L.foldl (removeConceptFor path) m) := by
  induction L generalizing m with
  | nil => exact h
  | cons c rest ih => exact ih (conceptWF_removeConceptFor h path c)

theorem conceptWF_applyOp {s : GraphState} (h : ConceptWF s.concepts) (op : GraphOp) :
    ConceptWF (applyOp s op).concepts := by
  cases op with
  | add p cs t => exact conceptWF_foldl_add h p
  | remove p =>
    show ConceptWF (removeNote s p).concepts
    unfold removeNote
    cases hget : mapGet s.notes p with
    | none => exact h
    | some note =>
      show ConceptWF (note.concepts.foldl (removeConceptFor p) s.concepts)
      exact conceptWF_foldl_remove h p
  | update p cs t => exact h

theorem conceptWF_foldl_ops {s : GraphState} (h : ConceptWF s.concepts) (ops : List GraphOp) :
    ConceptWF (ops.foldl applyOp s).concepts := by
  induction ops generalizing s with
  | nil => exact h
  | cons op rest ih => exact ih (conceptWF_applyOp h op)

/-- Claim C3: in every state reachable from the empty graph by `addNote`,
`removeNote` and `updateNoteConcepts` calls, every concept node has
`weight` equal to the number of its note paths and a nonempty note-path
list (a concept node exists only while some document holds it). -/
theorem graph_invariant (ops : List GraphOp) : ConceptWF (runOps ops).concepts :=
  conceptWF_foldl_ops (by intro q hq; cases hq) ops

/-- Witness for C3: running the two-document "latency" scenario ends in
a state satisfying the invariant, with the expected concrete concept map. -/
theorem graph_invariant_witness :
    (runOps [GraphOp.add "A" ["latency"] 0, GraphOp.add "B" ["latency"] 1]).concepts
      = [("latency", { name := "latency", notePaths := ["A", "B"], weight := 2 })] ∧
    ConceptWF (runOps [GraphOp.add "A" ["latency"] 0, GraphOp.add "B" ["latency"] 1]).concepts :=
  ⟨by decide, graph_invariant _⟩

theorem attachedAt_addConceptFor_self (path : String) (m : List (String × ConceptNode))
    (c : String) : AttachedAt path (addConceptFor path m c) c := by
  obtain ⟨node, heq, hw, hp, _⟩ := addConceptFor_eq path m c
  exact ⟨node, by rw [heq]; exact mapGet_set_self m c node, hp, hw⟩

theorem addConceptFor_of_attachedAt {path : String} {m : List (String × ConceptNode)}
    {c : String} (h : AttachedAt path m c) : addConceptFor path m c = m := by
  obtain ⟨node, hget, hp, hw⟩ := h
  unfold addConceptFor
  rw [hget]
  simp only [Option.getD_some, hp, if_pos]
  have : { node with weight := node.notePaths.length } = node := by
    cases node
    simp_all
  rw [this]
  exact mapSet_get_same hget

theorem attachedAt_addConceptFor {path : String} {m : List (String × ConceptNode)}
    {c : String} (h : AttachedAt path m c) (c' : String) :
    AttachedAt path (addConceptFor path m c') c := by
  by_cases hc : c' = c
  · subst hc
    rw [addConceptFor_of_attachedAt h]
    exact h
  · obtain ⟨node, heq, hw, hp, _⟩ := addConceptFor_eq path m c'
    obtain ⟨n, hget, hmem, hnw⟩ := h
    exact ⟨n, by rw [heq]; rw [mapGet_set_ne m c' node c (fun e => hc e.symm)]; exact hget,
      hmem, hnw⟩

theorem attachedAt_foldl {path : String} {m : List (String × ConceptNode)} {c : String}
    (h : AttachedAt path m c) (L : List String) :
    AttachedAt path (L.foldl (addConceptFor path) m) c := by
  induction L generalizing m with
  | nil => exact h
  | cons c' rest ih => exact ih (attachedAt_addConceptFor h c')

theorem attachedAt_foldl_mem {path : String} {L : List String} {c : String} (hc : c ∈ L)
    (m : List (String × ConceptNode)) :
    AttachedAt path (L.foldl (addConceptFor path) m) c := by
  induction L generalizing m with
  | nil => cases hc
  | cons c' rest ih =>
    rcases List.mem_cons.mp hc with he | hm
    · subst he
      exact attachedAt_foldl (attachedAt_addConceptFor_self path m c) rest
    · exact ih hm (addConceptFor path m c')

theorem foldl_addConceptFor_of_attached {path : String} {L : List String}
    {m : List (String × ConceptNode)} (h : ∀ c ∈ L, AttachedAt path m c) :
    L.foldl (addConceptFor path) m = m := by
  induction L with
  | nil => rfl
  | cons c rest ih =>
    have h1 := addConceptFor_of_attachedAt (h c (List.mem_cons_self c rest))
    simp only [List.foldl_cons, h1]
    exact ih (fun c' hc' => h c' (List.mem_cons_of_mem c hc'))

/-- Claim C7: `addNote` is idempotent.  A second call with the same
document id and the same labels (at a possibly later clock value `t2`)
yields exactly the state a single call at `t2` would produce. -/
theorem addNote_idem (s : GraphState) (p : String) (L : List String) (t1 t2 : Nat) :
    addNote (addNote s p L t1) p L t2 = addNote s p L t2 := by
  unfold addNote
  rw [mapSet_set_self,
    foldl_addConceptFor_of_attached (fun c hc => attachedAt_foldl_mem hc s.concepts)]

theorem foldl_addConceptFor_not_mem {path : String} {L : List String} {c : String}
    (hc : c ∉ L) (m : List (String × ConceptNode)) :
    mapGet (L.foldl (addConceptFor path) m) c = mapGet m c := by
  induction L generalizing m with
  | nil => rfl
  | cons c' rest ih =>
    have hne : c ≠ c' := fun e => hc (e ▸ List.mem_cons_self c' rest)
    have hrest : c ∉ rest := fun hr => hc (List.mem_cons_of_mem c' hr)
    obtain ⟨node, heq, _, _, _⟩ := addConceptFor_eq path m c'
    calc mapGet ((c' :: rest).foldl (addConceptFor path) m) c
        = mapGet (rest.foldl (addConceptFor path) (addConceptFor path m c')) c := rfl
      _ = mapGet (addConceptFor path m c') c := ih hrest _
      _ = mapGet m c := by rw [heq]; exact mapGet_set_ne m c' node c hne

/-- Claim C1 counterexample: after `addNote("a", ["x","y"])` then
`addNote("a", ["y"])`, the stale concept `"x"` (in `L1 \ L2`) is NOT
detached: its node still exists and still lists `"a"`. -/
theorem addNote_no_detach_cex :
    ("x" ∈ ["x", "y"] ∧ "x" ∉ ["y"]) ∧
    mapGet (addNote (addNote emptyGraphState "a" ["x", "y"] 0) "a" ["y"] 1).concepts "x"
      = some { name := "x", notePaths := ["a"], weight := 1 } := by decide

/-- Claim C1 (amended): `addNote(id, L1)` then `addNote(id, L2)` stores
exactly `L2` as the note's concept list and attaches `id` to every
concept of `L2`, but concepts outside `L2` are left untouched by the
second call; in particular every concept of `L1 \ L2` keeps `id` in its
document set — nothing is detached or deleted. -/
theorem addNote_overwrite (s : GraphState) (p : String) (L1 L2 : List String) (t1 t2 : Nat) :
    mapGet (addNote (addNote s p L1 t1) p L2 t2).notes p
      = some { path := p, concepts := L2, lastUpdated := t2 } ∧
    (∀ c ∈ L2, AttachedAt p (addNote (addNote s p L1 t1) p L2 t2).concepts c) ∧
    (∀ c, c ∉ L2 → mapGet (addNote (addNote s p L1 t1) p L2 t2).concepts c
      = mapGet (addNote s p L1 t1).concepts c) ∧
    (∀ c ∈ L1, c ∉ L2 → AttachedAt p (addNote (addNote s p L1 t1) p L2 t2).concepts c) := by
  refine ⟨mapGet_set_self _ _ _, fun c hc => attachedAt_foldl_mem hc _,
    fun c hc => foldl_addConceptFor_not_mem hc _, fun c hc1 hc2 => ?_⟩
  have h1 : AttachedAt p (addNote s p L1 t1).concepts c := attachedAt_foldl_mem hc1 _
  obtain ⟨node, hget, hmem, hw⟩ := h1
  refine ⟨node, ?_, hmem, hw⟩
  show mapGet (L2.foldl (addConceptFor p) (addNote s p L1 t1).concepts) c = some node
  rw [foldl_addConceptFor_not_mem hc2]
  exact hget

/-- Witness for C1 (amended): in the concrete two-call scenario the stale
concept `"x"` still carries `"a"`. -/
theorem addNote_overwrite_witness :
    AttachedAt "a" (addNote (addNote emptyGraphState "a" ["x", "y"] 0) "a" ["y"] 1).concepts "x" :=
  (addNote_overwrite emptyGraphState "a" ["x", "y"] ["y"] 0 1).2.2.2 "x" (by decide) (by decide)

/-- Claim C2 counterexample: on the empty graph, `updateNoteConcepts`
and `addNote` with the same arguments produce different states — the
former leaves the concepts map empty, the latter creates a concept node. -/
theorem updateNoteConcepts_ne_addNote_cex :
    updateNoteConcepts emptyGraphState "a" ["x"] 0 ≠ addNote emptyGraphState "a" ["x"] 0 := by
  decide

/-- Claim C2 (amended): `updateNoteConcepts(id, labels)` writes exactly
the notes-map entry `addNote` would write, but — unlike `addNote` — it
leaves the concepts map completely unchanged. -/
theorem updateNoteConcepts_vs_addNote (s : GraphState) (p : String) (L : List String) (t : Nat) :
    (updateNoteConcepts s p L t).notes = (addNote s p L t).notes ∧
    (updateNoteConcepts s p L t).concepts = s.concepts :=
  ⟨rfl, rfl⟩

/-- Claim C10: `updateNoteConcepts` never touches the concepts map; on
the notes map it replaces only the entry of the given path, leaving
every other entry unchanged. -/
theorem updateNoteConcepts_frame (s : GraphState) (p : String) (L : List String) (t : Nat) :
    (updateNoteConcepts s p L t).concepts = s.concepts ∧
    mapGet (updateNoteConcepts s p L t).notes p
      = some { path := p, concepts := L, lastUpdated := t } ∧
    ∀ q, q ≠ p → mapGet (updateNoteConcepts s p L t).notes q = mapGet s.notes q :=
  ⟨rfl, mapGet_set_self s.notes p _, fun q hq => mapGet_set_ne s.notes p _ q hq⟩

/-- Witness for C10 at a concrete state and path. -/
theorem updateNoteConcepts_frame_witness :
    (updateNoteConcepts emptyGraphState "a" ["x"] 0).concepts = [] ∧
    mapGet (updateNoteConcepts emptyGraphState "a" ["x"] 0).notes "b" = none := by
  have h := updateNoteConcepts_frame emptyGraphState "a" ["x"] 0
  exact ⟨h.1, by rw [h.2.2 "b" (by decide)]; rfl⟩

theorem le_foldl_max_init (l : List Nat) (b : Nat) : b ≤ l.foldl Nat.max b := by
  induction l generalizing b with
  | nil => exact le_refl b
  | cons x t ih => exact le_trans (Nat.le_max_left b x) (ih (Nat.max b x))

theorem le_foldl_max_mem {l : List Nat} {x : Nat} (h : x ∈ l) (b : Nat) :
    x ≤ l.foldl Nat.max b := by
  induction l generalizing b with
  | nil => cases h
  | cons y t ih =>
    rcases List.mem_cons.mp h with he | hm
    · subst he
      exact le_trans (Nat.le_max_right b x) (le_foldl_max_init t (Nat.max b x))
    · exact ih hm (Nat.max b y)

theorem foldl_max_le {l : List Nat} {c : Nat} (h : ∀ x ∈ l, x ≤ c) {b : Nat} (hb : b ≤ c) :
    l.foldl Nat.max b ≤ c := by
  induction l generalizing b with
  | nil => exact hb
  | cons x t ih =>
    exact ih (fun y hy => h y (List.mem_cons_of_mem x hy))
      (Nat.max_le.mpr ⟨hb, h x (List.mem_cons_self x t)⟩)

theorem foldl_max_mem_or (l : List Nat) (b : Nat) :
    l.foldl Nat.max b ∈ l ∨ l.foldl Nat.max b = b := by
  induction l generalizing b with
  | nil => exact Or.inr rfl
  | cons x t ih =>
    rcases ih (Nat.max b x) with h | h
    · exact Or.inl (List.mem_cons_of_mem x h)
    · rcases Nat.le_total b x with hbx | hxb
      · have he : Nat.max b x = x :=
          le_antisymm (Nat.max_le.mpr ⟨hbx, le_refl x⟩) (Nat.le_max_right b x)
        exact Or.inl (by rw [List.foldl_cons, h, he]; exact List.mem_cons_self x t)
      · have he : Nat.max b x = b :=
          le_antisymm (Nat.max_le.mpr ⟨le_refl b, hxb⟩) (Nat.le_max_left b x)
        exact Or.inr (by rw [List.foldl_cons, h, he])

theorem keysNodup_mapSet {α β : Type} [DecidableEq α] {m : List (α × β)}
    (h : KeysNodup m) (k : α) (v : β) : KeysNodup (mapSet m k v) := by
  induction m with
  | nil => simp [mapSet, KeysNodup]
  | cons hd tl ih =>
    obtain ⟨k', v'⟩ := hd
    have h1 : k' ∉ tl.map Prod.fst := (List.nodup_cons.mp h).1
    have h2 : KeysNodup tl := (List.nodup_cons.mp h).2
    by_cases h0 : k' = k
    · subst h0
      unfold KeysNodup
      simp only [mapSet, if_pos rfl, List.map_cons]
      exact List.nodup_cons.mpr ⟨h1, h2⟩
    · unfold KeysNodup
      simp only [mapSet, if_neg h0, List.map_cons]
      refine List.nodup_cons.mpr ⟨?_, ih h2⟩
      intro hmem
      rcases List.mem_map.mp hmem with ⟨q, hq, hfst⟩
      rcases mem_mapSet hq with hq1 | hq1
      · exact h1 (hfst ▸ List.mem_map_of_mem Prod.fst hq1)
      · exact h0 (by rw [← hfst, hq1])

theorem mapGet_of_mem_keysNodup {α β : Type} [DecidableEq α] {m : List (α × β)}
    (h : KeysNodup m) {k : α} {v : β} (hmem : (k, v) ∈ m) : mapGet m k = some v := by
  induction m with
  | nil => cases hmem
  | cons hd tl ih =>
    obtain ⟨k', v'⟩ := hd
    rcases List.mem_cons.mp hmem with he | hm
    · injection he with hk hv
      subst hk
      subst hv
      simp [mapGet]
    · have h1 : k' ∉ tl.map Prod.fst := (List.nodup_cons.mp h).1
      have hne : ¬ k' = k := fun e =>
        h1 (e ▸ List.mem_map_of_mem Prod.fst hm)
      simp only [mapGet, if_neg hne]
      exact ih (List.nodup_cons.mp h).2 hm

theorem scoreStep_keysNodup {notePath : String} {cnode : ConceptNode} {concept : String}
    {m : List (String × ScoreData)} (h : KeysNodup m) (rp : String) :
    KeysNodup (scoreStep notePath cnode concept m rp) := by
  unfold scoreStep
  by_cases hrp : rp = notePath
  · rw [if_pos hrp]; exact h
  · rw [if_neg hrp]; exact keysNodup_mapSet h rp _

theorem scoreStep_allpos {notePath : String} {cnode : ConceptNode} (hw : 1 ≤ cnode.weight)
    {concept : String} {m : List (String × ScoreData)} (h : ScoreAllPos m) (rp : String) :
    ScoreAllPos (scoreStep notePath cnode concept m rp) := by
  unfold scoreStep
  by_cases hrp : rp = notePath
  · rw [if_pos hrp]; exact h
  · rw [if_neg hrp]
    intro q hq
    rcases mem_mapSet hq with hq1 | hq1
    · exact h q hq1
    · subst hq1
      have hb : ∀ d : ScoreData,
          d.relevance = ((mapGet m rp).getD { relevance := 0, sharedConcepts := [] }).relevance
            + cnode.weight → 1 ≤ d.relevance := by
        intro d hd
        rw [hd]
        omega
      split
      · exact hb _ rfl
      · exact hb _ rfl

theorem foldl_scoreStep_keysNodup {notePath : String} {cnode : ConceptNode} {concept : String}
    {m : List (String × ScoreData)} (h : KeysNodup m) (paths : List String) :
    KeysNodup (paths.foldl (scoreStep notePath cnode concept) m) := by
  induction paths generalizing m with
  | nil => exact h
  | cons p t ih => exact ih (scoreStep_keysNodup h p)

theorem foldl_scoreStep_allpos {notePath : String} {cnode : ConceptNode} (hw : 1 ≤ cnode.weight)
    {concept : String} {m : List (String × ScoreData)} (h : ScoreAllPos m) (paths : List String) :
    ScoreAllPos (paths.foldl (scoreStep notePath cnode concept) m) := by
  induction paths generalizing m with
  | nil => exact h
  | cons p t ih => exact ih (scoreStep_allpos hw h p)

theorem accumScores_keysNodup (s : GraphState) (notePath : String) (cs : List String) :
    KeysNodup (accumScores s notePath cs) := by
  unfold accumScores
  generalize hstart : ([] : List (String × ScoreData)) = start
  have h0 : KeysNodup start := by rw [← hstart]; simp [KeysNodup]
  clear hstart
  induction cs generalizing start with
  | nil => exact h0
  | cons c t ih =>
    rw [List.foldl_cons]
    cases hget : mapGet s.concepts c with
    | none => exact ih _ h0
    | some cnode => exact ih _ (foldl_scoreStep_keysNodup h0 cnode.notePaths)

theorem accumScores_allpos {s : GraphState} (hwf : ConceptWF s.concepts)
    (notePath : String) (cs : List String) : ScoreAllPos (accumScores s notePath cs) := by
  unfold accumScores
  generalize hstart : ([] : List (String × ScoreData)) = start
  have h0 : ScoreAllPos start := by rw [← hstart]; intro q hq; cases hq
  clear hstart
  induction cs generalizing start with
  | nil => exact h0
  | cons c t ih =>
    rw [List.foldl_cons]
    cases hget : mapGet s.concepts c with
    | none => exact ih _ h0
    | some cnode =>
      have hw : 1 ≤ cnode.weight := by
        obtain ⟨hwl, hne⟩ := hwf (c, cnode) (mapGet_mem hget)
        rcases List.exists_cons_of_ne_nil hne with ⟨a, t2, he⟩
        simp only at hwl
        rw [hwl, he]
        simp
      exact ih _ (foldl_scoreStep_allpos hw h0 cnode.notePaths)

theorem maxRawScore_attained {cands : List (String × ScoreData)} (hne : cands ≠ [])
    (hpos : ScoreAllPos cands) : ∃ q ∈ cands, q.2.relevance = maxRawScore cands := by
  rcases foldl_max_mem_or (cands.map (fun q => q.2.relevance)) 1 with h | h
  · rcases List.mem_map.mp h with ⟨q, hq, he⟩
    exact ⟨q, hq, he⟩
  · rcases List.exists_cons_of_ne_nil hne with ⟨q0, t, he⟩
    have hmem : q0 ∈ cands := by rw [he]; exact List.mem_cons_self q0 t
    refine ⟨q0, hmem, ?_⟩
    have h1 : 1 ≤ q0.2.relevance := hpos q0 hmem
    have h2 : q0.2.relevance ≤ maxRawScore cands :=
      le_foldl_max_mem (List.mem_map_of_mem (fun q => q.2.relevance) hmem) 1
    have h3 : maxRawScore cands = 1 := h
    omega

theorem findRelatedNotes_eq {vault : List String} {s : GraphState} {p : String}
    (maxResults : Nat) {note : NoteNode} (hnote : mapGet s.notes p = some note) :
    findRelatedNotes vault s p maxResults =
      (List.insertionSort relatedDesc
        (((accumScores s p note.concepts).filter (fun q => decide (q.1 ∈ vault))).map
          (toRelatedNote (maxRawScore (accumScores s p note.concepts))))).take maxResults := by
  unfold findRelatedNotes
  rw [hnote]

theorem relatedPipeline_spec (cands : List (String × ScoreData)) (vault : List String)
    (maxResults : Nat) (hpos : ScoreAllPos cands) (hnd : KeysNodup cands)
    (hvault : ∀ q ∈ cands, q.1 ∈ vault) :
    (∀ r ∈ (List.insertionSort relatedDesc ((cands.filter (fun q => decide (q.1 ∈ vault))).map
        (toRelatedNote (maxRawScore cands)))).take maxResults,
      0 ≤ r.relevance ∧ r.relevance ≤ 1) ∧
    (cands = [] → (List.insertionSort relatedDesc
        ((cands.filter (fun q => decide (q.1 ∈ vault))).map
        (toRelatedNote (maxRawScore cands)))).take maxResults = []) ∧
    (cands ≠ [] → 1 ≤ maxResults →
      ∃ r ∈ (List.insertionSort relatedDesc
          ((cands.filter (fun q => decide (q.1 ∈ vault))).map
          (toRelatedNote (maxRawScore cands)))).take maxResults,
        r.relevance = 1 ∧ ∃ d, (r.file, d) ∈ cands ∧
          ∀ q ∈ cands, q.2.relevance ≤ d.relevance) ∧
    (∀ r ∈ (List.insertionSort relatedDesc
        ((cands.filter (fun q => decide (q.1 ∈ vault))).map
        (toRelatedNote (maxRawScore cands)))).take maxResults,
      ∀ d, mapGet cands r.file = some d →
        (∀ q ∈ cands, q.2.relevance ≤ d.relevance) → r.relevance = 1) := by
  set M := maxRawScore cands with hMdef
  set RN := (cands.filter (fun q => decide (q.1 ∈ vault))).map (toRelatedNote M) with hRNdef
  set S := List.insertionSort relatedDesc RN with hSdef
  have hM1 : 1 ≤ M := le_foldl_max_init _ 1
  have hMQ : (0 : ℚ) < (M : ℚ) := by
    have : 0 < M := lt_of_lt_of_le one_pos hM1
    exact_mod_cast this
  have hub : ∀ q ∈ cands, q.2.relevance ≤ M := fun q hq =>
    le_foldl_max_mem (List.mem_map_of_mem (fun q => q.2.relevance) hq) 1
  have hmemRN : ∀ r ∈ RN, ∃ q, q ∈ cands ∧ r = toRelatedNote M q := by
    intro r hr
    rw [hRNdef] at hr
    rcases List.mem_map.mp hr with ⟨q, hq, he⟩
    exact ⟨q, List.mem_of_mem_filter hq, he.symm⟩
  have hbound : ∀ r ∈ RN, 0 ≤ r.relevance ∧ r.relevance ≤ 1 := by
    intro r hr
    rcases hmemRN r hr with ⟨q, hq, he⟩
    rw [he]
    constructor
    · show (0 : ℚ) ≤ (q.2.relevance : ℚ) / (M : ℚ)
      exact div_nonneg (Nat.cast_nonneg _) (Nat.cast_nonneg _)
    · show (q.2.relevance : ℚ) / (M : ℚ) ≤ 1
      rw [div_le_one hMQ]
      exact_mod_cast hub q hq
  have hperm : S.Perm RN := List.perm_insertionSort relatedDesc RN
  have hsorted : List.Sorted relatedDesc S := List.sorted_insertionSort relatedDesc RN
  have hsub : ∀ r ∈ S.take maxResults, r ∈ RN := fun r hr =>
    hperm.mem_iff.mp (List.take_subset _ _ hr)
  refine ⟨fun r hr => hbound r (hsub r hr), ?_, ?_, ?_⟩
  · intro hnil
    rw [hSdef, hRNdef, hnil]
    simp
  · intro hne hmax1
    obtain ⟨qmax, hqmem, hqrel⟩ := maxRawScore_attained hne hpos
    have hrmax : toRelatedNote M qmax ∈ RN := by
      rw [hRNdef]
      refine List.mem_map_of_mem _ (List.mem_filter.mpr ⟨hqmem, ?_⟩)
      simpa using hvault qmax hqmem
    have hrel1 : (toRelatedNote M qmax).relevance = 1 := by
      show (qmax.2.relevance : ℚ) / (M : ℚ) = 1
      rw [hqrel]
      exact div_self (ne_of_gt hMQ)
    have hmaxS : toRelatedNote M qmax ∈ S := hperm.mem_iff.mpr hrmax
    have hSne : S ≠ [] := fun h0 => by rw [h0] at hmaxS; cases hmaxS
    obtain ⟨r0, S', hSc⟩ := List.exists_cons_of_ne_nil hSne
    have hhead : ∀ x ∈ S, relatedDesc r0 x := by
      intro x hx
      rw [hSc] at hx
      rcases List.mem_cons.mp hx with he | hm
      · rw [he]
        exact le_refl _
      · exact List.rel_of_sorted_cons (hSc ▸ hsorted) x hm
    have h1le : (1 : ℚ) ≤ r0.relevance := hrel1 ▸ hhead _ hmaxS
    have hr0RN : r0 ∈ RN := hperm.mem_iff.mp (by rw [hSc]; exact List.mem_cons_self r0 S')
    have hr0rel : r0.relevance = 1 := le_antisymm (hbound r0 hr0RN).2 h1le
    have hr0take : r0 ∈ S.take maxResults := by
      rw [hSc]
      cases maxResults with
      | zero => omega
      | succ n => exact List.mem_cons_self r0 _
    obtain ⟨q0, hq0mem, hq0eq⟩ := hmemRN r0 hr0RN
    have hq0rel : (q0.2.relevance : ℚ) / (M : ℚ) = 1 := by
      rw [hq0eq] at hr0rel
      exact hr0rel
    have hq0M : q0.2.relevance = M := by
      have h2 : (q0.2.relevance : ℚ) = (M : ℚ) := by
        rw [div_eq_one_iff_eq (ne_of_gt hMQ)] at hq0rel
        exact hq0rel
      exact_mod_cast h2
    refine ⟨r0, hr0take, hr0rel, q0.2, ?_, ?_⟩
    · have hf : r0.file = q0.1 := by rw [hq0eq]; rfl
      rw [hf]
      exact hq0mem
    · intro q hq
      rw [hq0M]
      exact hub q hq
  · intro r hr d hgetd hdmax
    have hrRN : r ∈ RN := hsub r hr
    obtain ⟨q, hqmem, hqeq⟩ := hmemRN r hrRN
    have hget2 : mapGet cands q.1 = some q.2 := mapGet_of_mem_keysNodup hnd hqmem
    have hf : r.file = q.1 := by rw [hqeq]; rfl
    rw [hf, hget2] at hgetd
    injection hgetd with hd
    subst hd
    have hne : cands ≠ [] := fun h0 => by rw [h0] at hqmem; cases hqmem
    obtain ⟨qmax, hqmaxmem, hqmaxrel⟩ := maxRawScore_attained hne hpos
    have hMle : M ≤ q.2.relevance := by
      rw [hMdef, ← hqmaxrel]
      exact hdmax qmax hqmaxmem
    have hqM : q.2.relevance = M := le_antisymm (hub q hqmem) hMle
    rw [hqeq]
    show (q.2.relevance : ℚ) / (M : ℚ) = 1
    rw [hqM]
    exact div_self (ne_of_gt hMQ)

/-- Claim C4: for an indexed document, every result of
`findRelatedNotes` has relevance in `[0,1]`; with no candidates the
result is empty (no division by zero); with at least one candidate (and
`maxResults ≥ 1`, candidates present in the vault) a candidate of
maximal raw score appears with relevance exactly `1`, and every returned
result whose raw score is maximal has relevance exactly `1`. -/
theorem findRelatedNotes_relevance (vault : List String) (s : GraphState) (p : String)
    (maxResults : Nat) (note : NoteNode)
    (hnote : mapGet s.notes p = some note)
    (hwf : ConceptWF s.concepts)
    (hvault : ∀ q ∈ accumScores s p note.concepts, q.1 ∈ vault) :
    (∀ r ∈ findRelatedNotes vault s p maxResults, 0 ≤ r.relevance ∧ r.relevance ≤ 1) ∧
    (accumScores s p note.concepts = [] → findRelatedNotes vault s p maxResults = []) ∧
    (accumScores s p note.concepts ≠ [] → 1 ≤ maxResults →
      ∃ r ∈ findRelatedNotes vault s p maxResults,
        r.relevance = 1 ∧ ∃ d, (r.file, d) ∈ accumScores s p note.concepts ∧
          ∀ q ∈ accumScores s p note.concepts, q.2.relevance ≤ d.relevance) ∧
    (∀ r ∈ findRelatedNotes vault s p maxResults,
      ∀ d, mapGet (accumScores s p note.concepts) r.file = some d →
        (∀ q ∈ accumScores s p note.concepts, q.2.relevance ≤ d.relevance) →
        r.relevance = 1) := by
  rw [findRelatedNotes_eq maxResults hnote]
  exact relatedPipeline_spec (accumScores s p note.concepts) vault maxResults
    (accumScores_allpos hwf p note.concepts) (accumScores_keysNodup s p note.concepts) hvault

/-- Witness for C4: in the two-document "latency" scenario of the spec,
`findRelatedNotes("A")` returns a result with relevance exactly `1`. -/
theorem findRelatedNotes_relevance_witness :
    ∃ r ∈ findRelatedNotes ["A", "B"]
        (addNote (addNote emptyGraphState "A" ["latency"] 0) "B" ["latency"] 1) "A" 10,
      r.relevance = 1 ∧ ∃ d,
        (r.file, d) ∈ accumScores
            (addNote (addNote emptyGraphState "A" ["latency"] 0) "B" ["latency"] 1) "A"
            ({ path := "A", concepts := ["latency"], lastUpdated := 0 } : NoteNode).concepts ∧
          ∀ q ∈ accumScores
              (addNote (addNote emptyGraphState "A" ["latency"] 0) "B" ["latency"] 1) "A"
              ({ path := "A", concepts := ["latency"], lastUpdated := 0 } : NoteNode).concepts,
            q.2.relevance ≤ d.relevance :=
  (findRelatedNotes_relevance ["A", "B"]
      (addNote (addNote emptyGraphState "A" ["latency"] 0) "B" ["latency"] 1) "A" 10
      { path := "A", concepts := ["latency"], lastUpdated := 0 }
      (by decide) (by decide) (by decide)).2.2.1 (by decide) (by decide)

theorem mem_dedupAux {seen l : List String} {x : String} :
    x ∈ dedupAux seen l ↔ x ∈ l ∧ x ∉ seen := by
  induction l generalizing seen with
  | nil => simp [dedupAux]
  | cons y ys ih =>
    by_cases hy : y ∈ seen
    · simp only [dedupAux, if_pos hy]
      rw [ih]
      constructor
      · rintro ⟨h1, h2⟩
        exact ⟨List.mem_cons_of_mem y h1, h2⟩
      · rintro ⟨h1, h2⟩
        rcases List.mem_cons.mp h1 with he | hm
        · exact absurd (he ▸ hy) h2
        · exact ⟨hm, h2⟩
    · simp only [dedupAux, if_neg hy]
      constructor
      · intro h
        rcases List.mem_cons.mp h with he | hm
        · rw [he]
          exact ⟨List.mem_cons_self y ys, hy⟩
        · obtain ⟨h1, h2⟩ := ih.mp hm
          exact ⟨List.mem_cons_of_mem y h1,
            fun hs => h2 (List.mem_cons_of_mem y hs)⟩
      · rintro ⟨h1, h2⟩
        rcases List.mem_cons.mp h1 with he | hm
        · rw [he]
          exact List.mem_cons_self y _
        · by_cases hxy : x = y
          · rw [hxy]
            exact List.mem_cons_self y _
          · refine List.mem_cons_of_mem y (ih.mpr ⟨hm, ?_⟩)
            intro hc
            rcases List.mem_cons.mp hc with h3 | h3
            · exact hxy h3
            · exact h2 h3

theorem mem_dedupKeepFirst {l : List String} {x : String} :
    x ∈ dedupKeepFirst l ↔ x ∈ l := by
  unfold dedupKeepFirst
  rw [mem_dedupAux]
  simp

theorem nodup_dedupAux (seen l : List String) : (dedupAux seen l).Nodup := by
  induction l generalizing seen with
  | nil => simp [dedupAux]
  | cons y ys ih =>
    by_cases hy : y ∈ seen
    · simp only [dedupAux, if_pos hy]
      exact ih seen
    · simp only [dedupAux, if_neg hy]
      refine List.nodup_cons.mpr ⟨?_, ih (y :: seen)⟩
      intro hmem
      exact (mem_dedupAux.mp hmem).2 (List.mem_cons_self y seen)

theorem foldl_append_eq_flat {α β : Type} (g : α → List β) (l : List α) (init : List β) :
    l.foldl (fun acc a => acc ++ g a) init = init ++ l.flatMap g := by
  induction l generalizing init with
  | nil => simp
  | cons a t ih => simp [ih, List.append_assoc]

theorem mem_sentenceEntities {sentence x : String} :
    x ∈ sentenceEntities sentence ↔
      ∃ i ∈ List.range (wordsOf sentence).length, x ∈ entityContrib (wordsOf sentence) i := by
  unfold sentenceEntities
  rw [foldl_append_eq_flat]
  simp [List.mem_flatMap]

theorem mem_extractNamedEntities {text x : String} :
    x ∈ extractNamedEntities text ↔
      ∃ sentence ∈ sentencesOf text, x ∈ sentenceEntities sentence := by
  unfold extractNamedEntities
  rw [mem_dedupKeepFirst, foldl_append_eq_flat]
  simp [List.mem_flatMap]

theorem mem_entityContrib {ws : List String} {i : Nat} {x : String} :
    x ∈ entityContrib ws i ↔
      ((0 < i ∧ 1 < (ws.getD i "").length ∧ entityPattern (ws.getD i "") = true ∧
          x = ws.getD i "") ∨
        (i + 1 < ws.length ∧ 1 < (ws.getD i "").length ∧ entityPattern (ws.getD i "") = true ∧
          entityPattern (ws.getD (i + 1) "") = true ∧
          x = ws.getD i "" ++ " " ++ ws.getD (i + 1) "")) := by
  unfold entityContrib
  by_cases h1 : 0 < i ∧ 1 < (ws.getD i "").length ∧ entityPattern (ws.getD i "") = true <;>
    by_cases h2 : i + 1 < ws.length ∧ 1 < (ws.getD i "").length ∧
      entityPattern (ws.getD i "") = true ∧ entityPattern (ws.getD (i + 1) "") = true <;>
    simp [h1, h2] <;>
    tauto

/-- Claim C6 counterexample: on "Alice Bob went home." the code emits
the compound "Alice Bob" although "Alice" is the sentence's first word
and therefore (per the claim) not an entity candidate; the claim's
"compound emitted exactly when both adjacent words are candidates" is
false on the code. -/
theorem extractNamedEntities_cex :
    extractNamedEntities "Alice Bob went home." = ["Alice Bob", "Bob"] := by decide

/-- Claim C6 (amended): `extractNamedEntities` emits a single word
exactly at non-initial positions matching `Capital+lowercase*`, and a
compound `"Word1 Word2"` exactly when two adjacent words both match the
pattern — the first-word exclusion does NOT apply to compounds; the
output is deduplicated. -/
theorem extractNamedEntities_char (text x : String) :
    (x ∈ extractNamedEntities text ↔
      ∃ sentence ∈ sentencesOf text, ∃ i,
        (0 < i ∧ 1 < ((wordsOf sentence).getD i "").length ∧
          entityPattern ((wordsOf sentence).getD i "") = true ∧
          x = (wordsOf sentence).getD i "") ∨
        (i + 1 < (wordsOf sentence).length ∧ 1 < ((wordsOf sentence).getD i "").length ∧
          entityPattern ((wordsOf sentence).getD i "") = true ∧
          entityPattern ((wordsOf sentence).getD (i + 1) "") = true ∧
          x = (wordsOf sentence).getD i "" ++ " " ++ (wordsOf sentence).getD (i + 1) "")) ∧
    (extractNamedEntities text).Nodup := by
  constructor
  · rw [mem_extractNamedEntities]
    constructor
    · rintro ⟨sentence, hs, hx⟩
      obtain ⟨i, _, hc⟩ := mem_sentenceEntities.mp hx
      exact ⟨sentence, hs, i, mem_entityContrib.mp hc⟩
    · rintro ⟨sentence, hs, i, h⟩
      have hlen : i < (wordsOf sentence).length := by
        rcases h with h | h
        · by_contra hge
          push_neg at hge
          rw [List.getD_eq_default _ _ hge] at h
          exact absurd h.2.2.1 (by decide)
        · omega
      exact ⟨sentence, hs,
        mem_sentenceEntities.mpr ⟨i, List.mem_range.mpr hlen, mem_entityContrib.mpr h⟩⟩
  · unfold extractNamedEntities
    exact nodup_dedupAux _ _

/-- Witness for C6 (amended): a sentence-initial compound is emitted and
the output is duplicate-free. -/
theorem extractNamedEntities_char_witness :
    "Alice Bob" ∈ extractNamedEntities "Alice Bob went home." ∧
    (extractNamedEntities "Alice Bob went home.").Nodup :=
  ⟨(extractNamedEntities_char "Alice Bob went home." "Alice Bob").1.mpr
      ⟨"Alice Bob went home", by decide, 0, Or.inr (by decide)⟩,
    (extractNamedEntities_char "Alice Bob went home." "Alice Bob").2⟩

/-- Claim C5: for sensitivity in `[1,10]` the frequency strategy returns
exactly the stop-word-filtered term-frequency entries whose frequency is
at least `max(2, floor(20 / (11 - s)))`, sorted by frequency descending
and truncated to the top `s * 3` terms; concretely, at sensitivity 5 on
a stream with "error" x4, "handling" x3 and ten further terms x1, it
yields exactly `["error", "handling"]`. -/
theorem extractFromTfIdf_spec (content : String) (sv : Int) (h1 : 1 ≤ sv) (h10 : sv ≤ 10) :
    (∃ qs : List (String × Nat),
      qs.Perm ((calculateTermFrequency (removeStopWords (tokenize content))).filter
        (fun q => decide (tfThreshold sv ≤ (q.2 : Int)))) ∧
      List.Sorted freqDesc qs ∧
      extractFromTfIdf sv content = (qs.take (sv * 3).toNat).map (fun q => q.1)) ∧
    (∀ t ∈ extractFromTfIdf sv content,
      ∃ f, (t, f) ∈ calculateTermFrequency (removeStopWords (tokenize content)) ∧
        tfThreshold sv ≤ (f : Int)) ∧
    (extractFromTfIdf sv content).length = min (sv * 3).toNat
      ((calculateTermFrequency (removeStopWords (tokenize content))).filter
        (fun q => decide (tfThreshold sv ≤ (q.2 : Int)))).length ∧
    extractFromTfIdf 5 tfScenarioText = ["error", "handling"] := by
  refine ⟨⟨List.insertionSort freqDesc
      ((calculateTermFrequency (removeStopWords (tokenize content))).filter
        (fun q => decide (tfThreshold sv ≤ (q.2 : Int)))),
      List.perm_insertionSort freqDesc _, List.sorted_insertionSort freqDesc _, rfl⟩,
    ?_, ?_, by decide⟩
  · intro t ht
    unfold extractFromTfIdf at ht
    rcases List.mem_map.mp ht with ⟨q, hq, he⟩
    have hq2 : q ∈ List.insertionSort freqDesc
        ((calculateTermFrequency (removeStopWords (tokenize content))).filter
          (fun q => decide (tfThreshold sv ≤ (q.2 : Int)))) :=
      List.take_subset _ _ hq
    have hq3 := (List.perm_insertionSort freqDesc _).mem_iff.mp hq2
    obtain ⟨hmem, hpred⟩ := List.mem_filter.mp hq3
    rw [decide_eq_true_eq] at hpred
    exact ⟨q.2, by rw [← he]; exact hmem, hpred⟩
  · unfold extractFromTfIdf
    rw [List.length_map, List.length_take,
      (List.perm_insertionSort freqDesc _).length_eq]

/-- Witness for C5 at sensitivity 5 on the scenario text. -/
theorem extractFromTfIdf_spec_witness :
    (1 : Int) ≤ 5 ∧ (5 : Int) ≤ 10 ∧ extractFromTfIdf 5 tfScenarioText = ["error", "handling"] :=
  ⟨by decide, by decide,
    (extractFromTfIdf_spec tfScenarioText 5 (by decide) (by decide)).2.2.2⟩

/-- Claim C8: after `learnFromUserFeedback(x, false)`, `extractConcepts`
never returns `x` on any text; and negative feedback is the only
feedback that removes labels — any label produced by the four strategies
without an explicit negative entry survives the filter (the function is
total, so no feedback table can make it fail). -/
theorem extractConcepts_feedback (s : ExtractorState) (content x : String) :
    x ∉ extractConcepts (learnFromUserFeedback s x false) content ∧
    (mapGet s.userFeedback x ≠ some false → x ∈ allStrategyConcepts s content →
      trimChars content.toList ≠ [] → x ∈ extractConcepts s content) := by
  constructor
  · intro hx
    unfold extractConcepts at hx
    by_cases hblank : trimChars content.toList = []
    · rw [if_pos hblank] at hx
      cases hx
    · rw [if_neg hblank] at hx
      have h2 := (List.mem_filter.mp (mem_dedupKeepFirst.mp hx)).2
      rw [decide_eq_true_eq] at h2
      exact h2 (mapGet_set_self s.userFeedback x false)
  · intro hfb hmem hblank
    unfold extractConcepts
    rw [if_neg hblank]
    exact mem_dedupKeepFirst.mpr (List.mem_filter.mpr ⟨hmem, by simpa using hfb⟩)

/-- Witness for C8: negative feedback on "Alice" removes it from a text
that otherwise yields it, and without feedback it is returned. -/
theorem extractConcepts_feedback_witness :
    "Alice" ∉ extractConcepts (learnFromUserFeedback initExtractor "Alice" false) "We saw Alice" ∧
    "Alice" ∈ extractConcepts initExtractor "We saw Alice" :=
  ⟨(extractConcepts_feedback initExtractor "We saw Alice" "Alice").1,
    (extractConcepts_feedback initExtractor "We saw Alice" "Alice").2
      (by decide) (by decide) (by decide)⟩

/-- Claim C9: `setSensitivity` stores the clamp of its argument to
`[1,10]` and never rejects out-of-range input; `setSensitivity 0` leaves
the extractor in the same state as `setSensitivity 1`, and
`setSensitivity 99` the same as `setSensitivity 10`, so every later
`extractConcepts` call behaves identically in each pair. -/
theorem setSensitivity_clamps (s : ExtractorState) (v : Int) :
    (setSensitivity s v).sensitivity = max 1 (min 10 v) ∧
    setSensitivity s 0 = setSensitivity s 1 ∧
    setSensitivity s 99 = setSensitivity s 10 ∧
    (∀ content, extractConcepts (setSensitivity s 0) content
      = extractConcepts (setSensitivity s 1) content) ∧
    (∀ content, extractConcepts (setSensitivity s 99) content
      = extractConcepts (setSensitivity s 10) content) := by
  have h01 : max 1 (min 10 (0 : Int)) = max 1 (min 10 (1 : Int)) := by decide
  have h99 : max 1 (min 10 (99 : Int)) = max 1 (min 10 (10 : Int)) := by decide
  refine ⟨rfl, ?_, ?_, ?_, ?_⟩
  · unfold setSensitivity
    rw [h01]
  · unfold setSensitivity
    rw [h99]
  · intro content
    unfold setSensitivity
    rw [h01]
  · intro content
    unfold setSensitivity
    rw [h99]
